import Mathlib

/-!
Verification of the data preparation and query pipeline of rulin.py.

The pipeline is embedded shallowly: each CSV table is a list of records,
pandas groupby-sum is an aggregator over the ascending-sorted distinct
keys, pandas left merge is a per-row gazetteer lookup, the three query
shapes of the dashboard are list filters, and the networkx graph of the
network module is an insertion-ordered node/edge list with duplicate
edges collapsed. Numbers are exact: counts and chapters are integers,
per-1000-characters densities and coordinates are rationals, and a null
CSV cell is an Option none.
-/

namespace Rulin

/-- Row of places.csv: a place name with optional coordinates (a missing
cell in the CSV reads as null, modelled as none). -/
structure PlaceRow where
  place : String
  lat : Option Rat
  lon : Option Rat
  deriving DecidableEq

/-- Row of place_freq.csv: one place's mentions in one chapter. -/
structure FreqRow where
  place : String
  chapter : Int
  count : Int
  per_1k_chars : Rat
  deriving DecidableEq

/-- Row of the derived book-wide total-frequency table. -/
structure TotalRow where
  place : String
  count : Int
  per_1k_chars : Rat
  deriving DecidableEq

/-- Row of place_analysis_ch01-20_cha_act.csv; every text column may be
null (pandas NaN), modelled as none. -/
structure ContextRow where
  chapter : Int
  place : Option String
  Character1 : Option String
  Character2 : Option String
  Activity : Option String
  snippet : Option String
  deriving DecidableEq

/-- Result row of a pandas left merge with places.csv: the left row plus
the lat and lon columns, null when the join missed. -/
structure Enriched (α : Type) where
  base : α
  lat : Option Rat
  lon : Option Rat
  deriving DecidableEq

/-- Left outer join on the place-name key, as in
df.merge(places, on=place, how=left) at lines 74-76: each left row is
kept in left order; a row whose key matches no gazetteer row is retained
once with null coordinates; a row with matches is emitted once per
matching gazetteer row, in gazetteer order. A null key (possible in the
context table) matches nothing. mergeBlock gives the output rows of one
left row. -/
def mergeBlock {α : Type} (key : α → Option String) (r : α)
    (places : List PlaceRow) : List (Enriched α) :=
  match places.filter (fun p => key r == some p.place) with
  | [] => [⟨r, none, none⟩]
  | m :: ms => (m :: ms).map (fun p => ⟨r, p.lat, p.lon⟩)

/-- Rows a left merge emits for the whole left table, in left order. -/
def leftMerge {α : Type} (key : α → Option String) :
    List α → List PlaceRow → List (Enriched α)
  | [], _ => []
  | r :: rs, places => mergeBlock key r places ++ leftMerge key rs places

/-- Python str.strip on a string value: drop leading and trailing
whitespace characters, modelled structurally on the character list. -/
def strip (s : String) : String :=
  ⟨((s.data.dropWhile Char.isWhitespace).reverse.dropWhile
      Char.isWhitespace).reverse⟩

/-- Code-point lexicographic comparison of character lists, the order
pandas uses on string group keys. -/
def charsLe : List Char → List Char → Bool
  | [], _ => true
  | _ :: _, [] => false
  | a :: as, b :: bs =>
    if a.toNat < b.toNat then true
    else if b.toNat < a.toNat then false
    else charsLe as bs

/-- Code-point lexicographic comparison of strings. -/
def strLe (a b : String) : Bool :=
  charsLe a.data b.data

/-- Boolean comparison of integers, for sorting chapter keys. -/
def intLe (a b : Int) : Bool :=
  decide (a ≤ b)

/-- Insertion into an ascending list. -/
def insertAsc {α : Type} (le : α → α → Bool) (x : α) : List α → List α
  | [] => [x]
  | y :: ys => if le x y then x :: y :: ys else y :: insertAsc le x ys

/-- Insertion sort, ascending; pandas emits group keys sorted ascending
(the groupby default sort=True). -/
def sortAsc {α : Type} (le : α → α → Bool) (l : List α) : List α :=
  l.foldr (insertAsc le) []

/-- Sum of the count column over the chapter-frequency rows naming a
given place. -/
def sumCount (rows : List FreqRow) (p : String) : Int :=
  ((rows.filter (fun r => r.place == p)).map (fun r => r.count)).sum

/-- Sum of the per_1k_chars column over the chapter-frequency rows
naming a given place. -/
def sumPer1k (rows : List FreqRow) (p : String) : Rat :=
  ((rows.filter (fun r => r.place == p)).map (fun r => r.per_1k_chars)).sum

/-- Line 71: freq_chapter.groupby(place)[[count, per_1k_chars]].sum()
with the pandas default sort=True — one output row per distinct place,
ascending by place name, carrying the two column sums of its group. -/
def aggregate (rows : List FreqRow) : List TotalRow :=
  (sortAsc strLe (rows.map (fun r => r.place)).dedup).map
    (fun p => ⟨p, sumCount rows p, sumPer1k rows p⟩)

/-- Module 1, Total Overview branch (lines 144-145): df_freq_total with
the rows missing lat or lon dropped. -/
def overviewQuery (freq_total : List (Enriched TotalRow)) :
    List (Enriched TotalRow) :=
  freq_total.filter (fun r => r.lat.isSome && r.lon.isSome)

/-- Line 157: per-chapter count sum over the merged chapter table,
groupby(chapter)[count].sum() read at one key. -/
def chapterSum (freq : List (Enriched FreqRow)) (c : Int) : Int :=
  ((freq.filter (fun r => r.base.chapter == c)).map
    (fun r => r.base.count)).sum

/-- Line 158: sorted list of the distinct chapters whose count sum is
positive. -/
def valid_chapters (freq : List (Enriched FreqRow)) : List Int :=
  (sortAsc intLe (freq.map (fun r => r.base.chapter)).dedup).filter
    (fun c => decide (0 < chapterSum freq c))

/-- Module 1, Chapter Timeline branch (lines 170-171): the rows of the
selected chapter, then the rows with positive count, then dropna on lat
and lon. -/
def chapterQuery (freq : List (Enriched FreqRow)) (c : Int) :
    List (Enriched FreqRow) :=
  ((freq.filter (fun r => r.base.chapter == c)).filter
    (fun r => decide (0 < r.base.count))).filter
    (fun r => r.lat.isSome && r.lon.isSome)

/-- Module 3 filters (lines 293-301): an equality filter on place when a
place is picked, then an equality filter on Character1 when a character
is picked. A null cell never equals a picked value, matching pandas
where NaN compares unequal to every string. -/
def contextQuery (ctx : List (Enriched ContextRow))
    (placeF charF : Option String) : List (Enriched ContextRow) :=
  let t :=
    match placeF with
    | some p => ctx.filter (fun r => r.base.place == some p)
    | none => ctx
  match charF with
  | some c => t.filter (fun r => r.base.Character1 == some c)
  | none => t

/-- Simple undirected graph exactly as networkx builds one here:
insertion-ordered node and edge lists; adding an edge inserts the
missing endpoints and skips an edge already present in either
orientation. -/
structure Graph where
  nodes : List String
  edges : List (String × String)
  deriving DecidableEq

/-- Empty graph, the starting point of nx.Graph(). -/
def Graph.empty : Graph := ⟨[], []⟩

/-- Insert a node unless it is already present. -/
def Graph.addNode (g : Graph) (n : String) : Graph :=
  if n ∈ g.nodes then g else { g with nodes := g.nodes ++ [n] }

/-- Equality of undirected edges: same endpoints in either order. -/
def sameEdge (e f : String × String) : Bool :=
  (e.1 == f.1 && e.2 == f.2) || (e.1 == f.2 && e.2 == f.1)

/-- Membership of an undirected edge. -/
def Graph.hasEdge (g : Graph) (a b : String) : Bool :=
  g.edges.any (fun e => sameEdge e (a, b))

/-- The effect of nx.Graph().add_edge: both endpoints are inserted, and
the edge is appended unless already present in either orientation. -/
def Graph.addEdge (g : Graph) (a b : String) : Graph :=
  let g1 := (g.addNode a).addNode b
  if g1.hasEdge a b then g1
  else { g1 with edges := g1.edges ++ [(a, b)] }

/-- One iteration of the network construction loop (lines 246-254): the
primary edge needs a character and a place that are non-empty after
trimming, with the character not the literal nan; the secondary edge is
attempted independently whenever Character2 is not null, under the same
non-empty and non-nan test on the secondary character only. -/
def addRowEdges (g : Graph) (r : ContextRow) : Graph :=
  let char1 := strip (r.Character1.getD "")
  let place := strip (r.place.getD "")
  let g1 :=
    if char1 != "" && place != "" && char1 != "nan" then g.addEdge char1 place
    else g
  match r.Character2 with
  | some c =>
    let char2 := strip c
    if char2 != "" && char2 != "nan" then g1.addEdge char2 place else g1
  | none => g1

/-- Relationship extractor (lines 243-254): dropna on Character1 and
place, then the edge-adding loop over the surviving rows. The loop runs
over the merged context frame but reads only the context columns, which
the merge leaves unchanged, so the embedding takes the underlying
context rows. -/
def buildGraph (ctx : List ContextRow) : Graph :=
  (ctx.filter (fun r => r.Character1.isSome && r.place.isSome)).foldl
    addRowEdges Graph.empty

/-- Edge list free of duplicates up to orientation. -/
def edgeDupFree (g : Graph) : Prop :=
  g.edges.Pairwise (fun e f => sameEdge e f = false)

/-- Column names of the merged context frame, in pandas order: the
context CSV header (after the header trim) followed by the lat and lon
columns appended by the merge; temp_df.to_csv(index=False) at line 320
writes exactly these. -/
def contextExportColumns : List String :=
  ["chapter", "place", "Character1", "Character2", "Activity", "snippet",
   "lat", "lon"]

/-- Column selection the Close Reading view displays (line 308). -/
def contextViewColumns : List String :=
  ["chapter", "place", "Character1", "Activity", "snippet"]

/-- Tables exposed to the dashboard after a successful load. -/
structure LoadedData where
  df_places : List PlaceRow
  df_freq_chapter : List (Enriched FreqRow)
  df_freq_total : List (Enriched TotalRow)
  df_context : List (Enriched ContextRow)
  deriving DecidableEq

/-- Lines 58-80: the three read_csv calls run inside one try block, so
the first failure aborts the whole load and only its message is
returned, with no tables; on success the chapter table is aggregated
and all three frames are merged with the gazetteer. Each source is
modelled as an already-attempted read: ok with the parsed rows, or
error with the exception text. -/
def load_data (placesSrc : Except String (List PlaceRow))
    (freqSrc : Except String (List FreqRow))
    (ctxSrc : Except String (List ContextRow)) : Except String LoadedData :=
  match placesSrc with
  | .error e => .error e
  | .ok places =>
    match freqSrc with
    | .error e => .error e
    | .ok freq_chapter =>
      match ctxSrc with
      | .error e => .error e
      | .ok context =>
        .ok
          { df_places := places
            df_freq_chapter :=
              leftMerge (fun r => some r.place) freq_chapter places
            df_freq_total :=
              leftMerge (fun t => some t.place) (aggregate freq_chapter) places
            df_context := leftMerge (fun r => r.place) context places }

section SortLemmas

variable {α : Type} (le : α → α → Bool)

theorem perm_insertAsc (x : α) : ∀ l : List α, List.Perm (insertAsc le x l) (x :: l)
  | [] => List.Perm.refl _
  | y :: ys => by
    simp only [insertAsc]
    split
    · exact List.Perm.refl _
    · exact ((perm_insertAsc x ys).cons y).trans (List.Perm.swap x y ys)

theorem perm_sortAsc : ∀ l : List α, List.Perm (sortAsc le l) l
  | [] => List.Perm.refl _
  | x :: xs =>
    (perm_insertAsc le x (sortAsc le xs)).trans ((perm_sortAsc xs).cons x)

theorem pairwise_insertAsc
    (htot : ∀ a b, le a b = true ∨ le b a = true)
    (htrans : ∀ a b c, le a b = true → le b c = true → le a c = true)
    (x : α) :
    ∀ {l : List α}, l.Pairwise (fun a b => le a b = true) →
      (insertAsc le x l).Pairwise (fun a b => le a b = true) := by
  intro l
  induction l with
  | nil =>
    intro _
    simp [insertAsc]
  | cons y ys ih =>
    intro h
    rcases List.pairwise_cons.mp h with ⟨hy, hys⟩
    simp only [insertAsc]
    split
    case isTrue hxy =>
      refine List.pairwise_cons.mpr ⟨?_, h⟩
      intro z hz
      rcases List.mem_cons.mp hz with hz | hz
      · exact hz ▸ hxy
      · exact htrans x y z hxy (hy z hz)
    case isFalse hxy =>
      refine List.pairwise_cons.mpr ⟨?_, ih hys⟩
      intro z hz
      rcases List.mem_cons.mp ((perm_insertAsc le x ys).mem_iff.mp hz) with hz | hz
      · rcases htot x y with h1 | h1
        · exact absurd h1 hxy
        · exact hz ▸ h1
      · exact hy z hz

theorem pairwise_sortAsc
    (htot : ∀ a b, le a b = true ∨ le b a = true)
    (htrans : ∀ a b c, le a b = true → le b c = true → le a c = true) :
    ∀ l : List α, (sortAsc le l).Pairwise (fun a b => le a b = true)
  | [] => List.Pairwise.nil
  | x :: xs =>
    pairwise_insertAsc le htot htrans x (pairwise_sortAsc htot htrans xs)

end SortLemmas

theorem charsLe_total : ∀ x y : List Char, charsLe x y = true ∨ charsLe y x = true
  | [], _ => Or.inl rfl
  | _ :: _, [] => Or.inr rfl
  | a :: as, b :: bs => by
    rcases Nat.lt_trichotomy a.toNat b.toNat with h | h | h
    · left
      simp [charsLe, h]
    · have h1 : ¬ a.toNat < b.toNat := by omega
      have h2 : ¬ b.toNat < a.toNat := by omega
      simp only [charsLe, h1, h2, if_false]
      exact charsLe_total as bs
    · right
      simp [charsLe, h]

theorem charsLe_trans :
    ∀ x y z : List Char, charsLe x y = true → charsLe y z = true →
      charsLe x z = true
  | [], _, _, _, _ => rfl
  | _ :: _, [], _, hxy, _ => by simp [charsLe] at hxy
  | _ :: _, _ :: _, [], _, hyz => by simp [charsLe] at hyz
  | a :: as, b :: bs, c :: cs, hxy, hyz => by
    rcases Nat.lt_trichotomy a.toNat b.toNat with hab | hab | hab
    · rcases Nat.lt_trichotomy b.toNat c.toNat with hbc | hbc | hbc
      · have : a.toNat < c.toNat := hab.trans hbc
        simp [charsLe, this]
      · have : a.toNat < c.toNat := by omega
        simp [charsLe, this]
      · have h1 : ¬ b.toNat < c.toNat := by omega
        simp [charsLe, h1, hbc] at hyz
    · rcases Nat.lt_trichotomy b.toNat c.toNat with hbc | hbc | hbc
      · have : a.toNat < c.toNat := by omega
        simp [charsLe, this]
      · have h1 : ¬ a.toNat < b.toNat := by omega
        have h2 : ¬ b.toNat < a.toNat := by omega
        have h3 : ¬ b.toNat < c.toNat := by omega
        have h4 : ¬ c.toNat < b.toNat := by omega
        have h5 : ¬ a.toNat < c.toNat := by omega
        have h6 : ¬ c.toNat < a.toNat := by omega
        simp only [charsLe, h1, h2, if_false] at hxy
        simp only [charsLe, h3, h4, if_false] at hyz
        simp only [charsLe, h5, h6, if_false]
        exact charsLe_trans as bs cs hxy hyz
      · have h1 : ¬ b.toNat < c.toNat := by omega
        simp [charsLe, h1, hbc] at hyz
    · have h1 : ¬ a.toNat < b.toNat := by omega
      simp [charsLe, h1, hab] at hxy

theorem strLe_total (a b : String) : strLe a b = true ∨ strLe b a = true :=
  charsLe_total a.data b.data

theorem strLe_trans (a b c : String) (h1 : strLe a b = true)
    (h2 : strLe b c = true) : strLe a c = true :=
  charsLe_trans a.data b.data c.data h1 h2

theorem intLe_total (a b : Int) : intLe a b = true ∨ intLe b a = true := by
  simp [intLe]
  omega

theorem intLe_trans (a b c : Int) (h1 : intLe a b = true)
    (h2 : intLe b c = true) : intLe a c = true := by
  simp [intLe] at *
  omega

theorem char_lt_iff_toNat_lt (u v : Char) : u < v ↔ u.toNat < v.toNat := by
  simp [Char.lt_def, Char.toNat, UInt32.lt_def, BitVec.lt_def, UInt32.toNat]

theorem char_eq_of_toNat_eq (u v : Char) (h : u.toNat = v.toNat) : u = v := by
  have h1 := Char.ofNat_toNat u
  have h2 := Char.ofNat_toNat v
  rw [h] at h1
  rw [h2] at h1
  exact h1.symm

theorem charsLe_eq_true_iff :
    ∀ x y : List Char, charsLe x y = true ↔ ¬ List.Lex (· < ·) y x
  | [], y => by
    constructor
    · intro _ h
      nomatch h
    · intro _
      rfl
  | a :: as, [] => by
    constructor
    · intro h
      simp [charsLe] at h
    · intro h
      exact absurd List.Lex.nil h
  | a :: as, b :: bs => by
    rcases Nat.lt_trichotomy a.toNat b.toNat with h | h | h
    · have h1 : charsLe (a :: as) (b :: bs) = true := by simp [charsLe, h]
      rw [h1]
      simp only [true_iff]
      intro hcon
      cases hcon with
      | cons htail => omega
      | rel hba => exact absurd ((char_lt_iff_toNat_lt b a).mp hba) (by omega)
    · have hab : a = b := char_eq_of_toNat_eq a b h
      subst hab
      have hstep : charsLe (a :: as) (a :: bs) = charsLe as bs := by
        simp [charsLe]
      rw [hstep, charsLe_eq_true_iff as bs]
      constructor
      · intro hnlt hcon
        cases hcon with
        | cons htail => exact hnlt htail
        | rel haa => exact absurd ((char_lt_iff_toNat_lt a a).mp haa) (by omega)
      · intro hncon htail
        exact hncon (List.Lex.cons htail)
    · have h1 : ¬ a.toNat < b.toNat := by omega
      have hfalse : charsLe (a :: as) (b :: bs) = false := by
        simp [charsLe, h1, h]
      rw [hfalse]
      simp only [Bool.false_eq_true, false_iff, not_not]
      exact List.Lex.rel ((char_lt_iff_toNat_lt b a).mpr h)

theorem strLe_iff_le (a b : String) : strLe a b = true ↔ a ≤ b := by
  show charsLe a.data b.data = true ↔ a ≤ b
  rw [charsLe_eq_true_iff]
  constructor
  · intro h
    rw [← not_lt]
    intro hc
    exact h (String.lt_iff_toList_lt.mp hc)
  · intro h hc
    rw [← not_lt] at h
    exact h (String.lt_iff_toList_lt.mpr hc)

theorem filter_beq_of_nodup (p : String) :
    ∀ l : List String, l.Nodup →
      l.filter (fun q => q == p) = if p ∈ l then [p] else []
  | [], _ => by simp
  | x :: xs, h => by
    rcases List.nodup_cons.mp h with ⟨hx, hxs⟩
    by_cases hxp : x = p
    · subst hxp
      have hnone : xs.filter (fun q => q == x) = [] := by
        rw [List.filter_eq_nil_iff]
        intro q hq
        simp only [beq_iff_eq]
        intro hqx
        exact hx (hqx ▸ hq)
      simp [List.filter_cons, hnone]
    · have : xs.filter (fun q => q == p) =
          if p ∈ xs then [p] else [] := filter_beq_of_nodup p xs hxs
      simp only [List.filter_cons]
      have hbeq : (x == p) = false := by simpa using hxp
      simp [hbeq, this, List.mem_cons, Ne.symm hxp]

theorem aggregate_places_eq (rows : List FreqRow) :
    (aggregate rows).map (fun t => t.place) =
      sortAsc strLe (rows.map (fun r => r.place)).dedup := by
  simp [aggregate, List.map_map, Function.comp_def]

theorem aggregate_places_perm (rows : List FreqRow) :
    List.Perm ((aggregate rows).map (fun t => t.place))
      (rows.map (fun r => r.place)).dedup := by
  rw [aggregate_places_eq]
  exact perm_sortAsc _ _

theorem sumCount_of_not_mem (rows : List FreqRow) (p : String)
    (h : p ∉ rows.map (fun r => r.place)) : sumCount rows p = 0 := by
  have : rows.filter (fun r => r.place == p) = [] := by
    rw [List.filter_eq_nil_iff]
    intro r hr
    simp only [beq_iff_eq]
    intro hrp
    exact h (List.mem_map.mpr ⟨r, hr, hrp⟩)
  simp [sumCount, this]

theorem sumPer1k_of_not_mem (rows : List FreqRow) (p : String)
    (h : p ∉ rows.map (fun r => r.place)) : sumPer1k rows p = 0 := by
  have : rows.filter (fun r => r.place == p) = [] := by
    rw [List.filter_eq_nil_iff]
    intro r hr
    simp only [beq_iff_eq]
    intro hrp
    exact h (List.mem_map.mpr ⟨r, hr, hrp⟩)
  simp [sumPer1k, this]

/-- C1: aggregation is lossless. The total table has exactly one row
per distinct place of the chapter table (same places, no duplicates),
each total row's count and per_1k_chars are the sums of that place's
per-chapter values, and hence for every place the place-grouped sum of
the total table equals the place-grouped sum of the chapter table. -/
theorem aggregate_lossless (rows : List FreqRow) :
    (∀ p : String,
      p ∈ (aggregate rows).map (fun t => t.place) ↔
        p ∈ rows.map (fun r => r.place)) ∧
    ((aggregate rows).map (fun t => t.place)).Nodup ∧
    (∀ t ∈ aggregate rows,
      t.count = sumCount rows t.place ∧
      t.per_1k_chars = sumPer1k rows t.place) ∧
    (∀ p : String,
      (((aggregate rows).filter (fun t => t.place == p)).map
          (fun t => t.count)).sum = sumCount rows p ∧
      (((aggregate rows).filter (fun t => t.place == p)).map
          (fun t => t.per_1k_chars)).sum = sumPer1k rows p) := by
  have hperm := aggregate_places_perm rows
  refine ⟨?_, ?_, ?_, ?_⟩
  · intro p
    rw [hperm.mem_iff, List.mem_dedup]
  · exact hperm.nodup_iff.mpr (List.nodup_dedup _)
  · intro t ht
    rcases List.mem_map.mp
      (show t ∈ (sortAsc strLe (rows.map (fun r => r.place)).dedup).map
          (fun p => (⟨p, sumCount rows p, sumPer1k rows p⟩ : TotalRow))
        from ht) with ⟨p, _, rfl⟩
    exact ⟨rfl, rfl⟩
  · intro p
    have hnodup : (sortAsc strLe (rows.map (fun r => r.place)).dedup).Nodup :=
      ((perm_sortAsc strLe _).nodup_iff).mpr (List.nodup_dedup _)
    have hfil :
        (aggregate rows).filter (fun t => t.place == p) =
          ((sortAsc strLe (rows.map (fun r => r.place)).dedup).filter
            (fun q => q == p)).map
            (fun q => (⟨q, sumCount rows q, sumPer1k rows q⟩ : TotalRow)) := by
      show List.filter _ (List.map _ _) = _
      rw [List.filter_map]
      rfl
    rw [hfil, filter_beq_of_nodup p _ hnodup]
    by_cases hp : p ∈ sortAsc strLe (rows.map (fun r => r.place)).dedup
    · simp [hp]
    · have hp2 : p ∉ rows.map (fun r => r.place) := by
        rw [← List.mem_dedup, ← (perm_sortAsc strLe _).mem_iff]
        exact hp
      simp [hp, sumCount_of_not_mem rows p hp2, sumPer1k_of_not_mem rows p hp2]

/-- Witness for C1 at the spec's example table: the place A row of the
aggregate carries count 3 + 5 = 8 and density 0.5 + 0.8 = 1.3. -/
theorem aggregate_lossless_witness :
    (⟨"A", 8, 13/10⟩ : TotalRow).count =
        sumCount [⟨"A", 1, 3, 1/2⟩, ⟨"A", 2, 5, 4/5⟩, ⟨"B", 1, 2, 3/10⟩]
          (⟨"A", 8, 13/10⟩ : TotalRow).place ∧
    (⟨"A", 8, 13/10⟩ : TotalRow).per_1k_chars =
        sumPer1k [⟨"A", 1, 3, 1/2⟩, ⟨"A", 2, 5, 4/5⟩, ⟨"B", 1, 2, 3/10⟩]
          (⟨"A", 8, 13/10⟩ : TotalRow).place :=
  (aggregate_lossless _).2.2.1 _ (by
    simp [aggregate, sortAsc, insertAsc, strLe, charsLe, sumCount, sumPer1k]
    norm_num)

theorem mergeBlock_base {α : Type} (key : α → Option String) (r : α)
    (places : List PlaceRow) : ∀ e ∈ mergeBlock key r places, e.base = r := by
  intro e he
  unfold mergeBlock at he
  split at he
  · rw [List.mem_singleton] at he
    rw [he]
  · rcases List.mem_map.mp he with ⟨p, _, rfl⟩
    rfl

theorem leftMerge_base_mem {α : Type} (key : α → Option String) :
    ∀ (l : List α) (places : List PlaceRow) (e : Enriched α),
      e ∈ leftMerge key l places → e.base ∈ l
  | [], _, e, h => absurd h (List.not_mem_nil e)
  | r :: rs, places, e, h => by
    rw [show leftMerge key (r :: rs) places =
        mergeBlock key r places ++ leftMerge key rs places from rfl,
      List.mem_append] at h
    rcases h with h | h
    · rw [mergeBlock_base key r places e h]
      exact List.mem_cons_self r rs
    · exact List.mem_cons_of_mem r (leftMerge_base_mem key rs places e h)

theorem leftMerge_pairwise_le (l : List TotalRow) (places : List PlaceRow)
    (h : l.Pairwise (fun a b => a.place ≤ b.place)) :
    ((leftMerge (fun t => some t.place) l places).map
        (fun e => e.base.place)).Pairwise (· ≤ ·) := by
  induction l with
  | nil => simp [leftMerge]
  | cons r rs ih =>
    rcases List.pairwise_cons.mp h with ⟨hr, hrs⟩
    show ((mergeBlock (fun t => some t.place) r places ++
        leftMerge (fun t => some t.place) rs places).map
        (fun e => e.base.place)).Pairwise (· ≤ ·)
    rw [List.map_append, List.pairwise_append]
    refine ⟨?_, ih hrs, ?_⟩
    · apply List.pairwise_of_forall_mem_list
      intro x hx y hy
      rcases List.mem_map.mp hx with ⟨e1, he1, rfl⟩
      rcases List.mem_map.mp hy with ⟨e2, he2, rfl⟩
      rw [mergeBlock_base _ r places e1 he1, mergeBlock_base _ r places e2 he2]
    · intro x hx y hy
      rcases List.mem_map.mp hx with ⟨e1, he1, rfl⟩
      rcases List.mem_map.mp hy with ⟨e2, he2, rfl⟩
      rw [mergeBlock_base _ r places e1 he1]
      exact hr e2.base (leftMerge_base_mem _ rs places e2 he2)

/-- C10: the aggregated total-frequency table is ordered ascending by
place name (its grouping key), and the left merge keeps left order with
per-row blocks sharing one place, so the overview view receives the
merged total table sorted ascending by place name. -/
theorem aggregate_and_merge_sorted (freq : List FreqRow)
    (places : List PlaceRow) :
    ((aggregate freq).map (fun t => t.place)).Pairwise (· ≤ ·) ∧
    ((leftMerge (fun t => some t.place) (aggregate freq) places).map
        (fun e => e.base.place)).Pairwise (· ≤ ·) := by
  have hsorted : ((aggregate freq).map (fun t => t.place)).Pairwise (· ≤ ·) := by
    rw [aggregate_places_eq]
    exact (pairwise_sortAsc strLe strLe_total strLe_trans _).imp
      (fun hab => (strLe_iff_le _ _).mp hab)
  exact ⟨hsorted, leftMerge_pairwise_le _ places (List.pairwise_map.mp hsorted)⟩

/-- C2: the overview query returns exactly the merged total-frequency
rows with non-null coordinates — membership in its result is equivalent
to membership in the merged total table together with both coordinates
present — and in particular no returned row has a null latitude or a
null longitude. -/
theorem overviewQuery_no_nulls (freq : List FreqRow) (places : List PlaceRow) :
    (∀ r ∈ overviewQuery
        (leftMerge (fun t => some t.place) (aggregate freq) places),
      r.lat ≠ none ∧ r.lon ≠ none) ∧
    (∀ r : Enriched TotalRow,
      r ∈ overviewQuery
          (leftMerge (fun t => some t.place) (aggregate freq) places) ↔
        r ∈ leftMerge (fun t => some t.place) (aggregate freq) places ∧
          r.lat.isSome = true ∧ r.lon.isSome = true) := by
  constructor
  · intro r hr
    rw [overviewQuery, List.mem_filter, Bool.and_eq_true] at hr
    exact ⟨Option.isSome_iff_ne_none.mp hr.2.1,
      Option.isSome_iff_ne_none.mp hr.2.2⟩
  · intro r
    rw [overviewQuery, List.mem_filter, Bool.and_eq_true]

/-- Witness for C2: on a one-row table geocoded at the origin, the
returned row has non-null coordinates. -/
theorem overviewQuery_no_nulls_witness :
    (⟨⟨"A", sumCount [⟨"A", 1, 2, 0⟩] "A", sumPer1k [⟨"A", 1, 2, 0⟩] "A"⟩,
        some 0, some 0⟩ : Enriched TotalRow).lat ≠ none ∧
    (⟨⟨"A", sumCount [⟨"A", 1, 2, 0⟩] "A", sumPer1k [⟨"A", 1, 2, 0⟩] "A"⟩,
        some 0, some 0⟩ : Enriched TotalRow).lon ≠ none :=
  (overviewQuery_no_nulls [⟨"A", 1, 2, 0⟩] [⟨"A", some 0, some 0⟩]).1 _
    (List.Mem.head _)

theorem edges_addNode (g : Graph) (n : String) :
    (g.addNode n).edges = g.edges := by
  simp only [Graph.addNode]
  split <;> rfl

theorem edgeDupFree_addEdge (g : Graph) (a b : String)
    (h : edgeDupFree g) : edgeDupFree (g.addEdge a b) := by
  have he : ((g.addNode a).addNode b).edges = g.edges := by
    rw [edges_addNode, edges_addNode]
  simp only [Graph.addEdge]
  split
  case isTrue _ =>
    simpa [edgeDupFree, he] using h
  case isFalse hne =>
    simp only [edgeDupFree, he]
    rw [List.pairwise_append]
    refine ⟨h, List.pairwise_singleton _ _, ?_⟩
    intro e hme f hmf
    have hf : f = (a, b) := List.mem_singleton.mp hmf
    simp only [Graph.hasEdge, he] at hne
    rw [List.any_eq_true] at hne
    push_neg at hne
    have := hne e hme
    subst hf
    simpa using this

theorem edgeDupFree_ite (c : Prop) [Decidable c] (g1 g2 : Graph)
    (h1 : edgeDupFree g1) (h2 : edgeDupFree g2) :
    edgeDupFree (if c then g1 else g2) := by
  split <;> assumption

theorem edgeDupFree_addRowEdges (g : Graph) (r : ContextRow)
    (h : edgeDupFree g) : edgeDupFree (addRowEdges g r) := by
  simp only [addRowEdges]
  cases r.Character2 with
  | none => exact edgeDupFree_ite _ _ _ (edgeDupFree_addEdge _ _ _ h) h
  | some c =>
    apply edgeDupFree_ite
    · exact edgeDupFree_addEdge _ _ _
        (edgeDupFree_ite _ _ _ (edgeDupFree_addEdge _ _ _ h) h)
    · exact edgeDupFree_ite _ _ _ (edgeDupFree_addEdge _ _ _ h) h

theorem edgeDupFree_foldl :
    ∀ (l : List ContextRow) (g : Graph), edgeDupFree g →
      edgeDupFree (l.foldl addRowEdges g)
  | [], _, h => h
  | r :: rs, g, h =>
    edgeDupFree_foldl rs (addRowEdges g r) (edgeDupFree_addRowEdges g r h)

/-- C3: multiple context rows linking the same character-place pair
collapse to a single undirected edge (no graph built by the extractor
holds two edges with the same endpoints up to orientation); on the
two-row input of the claim the graph has exactly the three nodes
Fan Jin, Nanjing, Zhou Jin and exactly the two edges Fan Jin to Nanjing
and Zhou Jin to Nanjing, with no duplicate despite Fan Jin appearing in
both rows. -/
theorem buildGraph_simple_and_example :
    (∀ ctx : List ContextRow, edgeDupFree (buildGraph ctx)) ∧
    buildGraph
        [⟨1, some "Nanjing", some "Fan Jin", some "", none, none⟩,
         ⟨2, some "Nanjing", some "Zhou Jin", some "Fan Jin", none, none⟩] =
      ⟨["Fan Jin", "Nanjing", "Zhou Jin"],
       [("Fan Jin", "Nanjing"), ("Zhou Jin", "Nanjing")]⟩ ∧
    (buildGraph
        [⟨1, some "Nanjing", some "Fan Jin", some "", none, none⟩,
         ⟨2, some "Nanjing", some "Zhou Jin", some "Fan Jin", none, none⟩]).nodes.length
      = 3 ∧
    (buildGraph
        [⟨1, some "Nanjing", some "Fan Jin", some "", none, none⟩,
         ⟨2, some "Nanjing", some "Zhou Jin", some "Fan Jin", none, none⟩]).edges.length
      = 2 := by
  refine ⟨fun ctx => edgeDupFree_foldl _ _ List.Pairwise.nil, ?_, ?_, ?_⟩
  · decide
  · decide
  · decide

/-- Predicate transcribed from C4's wording of a missing primary
character or place: absent, empty after trimming, or the literal string
nan. It is compared against what the code does, not derived from it. -/
def claimPrimaryMissing (r : ContextRow) : Bool :=
  (match r.Character1 with
   | none => true
   | some c => strip c == "" || strip c == "nan") ||
  (match r.place with
   | none => true
   | some p => strip p == "" || strip p == "nan")

/-- C4 counterexample: a row whose primary character is the literal
string nan — missing in the claim's sense — still yields the secondary
edge: the claim that no edge at all is added from such a row is false
on this input. -/
theorem addRowEdges_secondary_leak :
    claimPrimaryMissing
        ⟨1, some "Nanjing", some "nan", some "Zhou Jin", none, none⟩ = true ∧
    (buildGraph
        [⟨1, some "Nanjing", some "nan", some "Zhou Jin", none, none⟩]).edges =
      [("Zhou Jin", "Nanjing")] := by
  constructor
  · decide
  · decide

/-- C4 amended: a context row whose primary character or place is absent
(null) is dropped entirely and adds no edge; but a surviving row whose
primary character is merely empty after trimming or the literal nan, or
whose place trims to empty, skips only the primary edge — its secondary
edge is still added whenever Character2 is present, non-empty and not
nan. -/
theorem buildGraph_null_row_skip (r : ContextRow) (ctx : List ContextRow) :
    ((r.Character1 = none ∨ r.place = none) →
      buildGraph (r :: ctx) = buildGraph ctx) ∧
    (∀ c1 p c2, r.Character1 = some c1 → r.place = some p →
      r.Character2 = some c2 →
      (strip c1 = "" ∨ strip c1 = "nan" ∨ strip p = "") →
      strip c2 ≠ "" → strip c2 ≠ "nan" →
      buildGraph [r] = Graph.empty.addEdge (strip c2) (strip p)) := by
  constructor
  · intro h
    rcases h with h | h <;> simp [buildGraph, List.filter, h]
  · intro c1 p c2 hc1 hp hc2 hbad hne1 hne2
    have hfil : buildGraph [r] = addRowEdges Graph.empty r := by
      simp [buildGraph, List.filter, hc1, hp]
    rw [hfil]
    simp only [addRowEdges, hc1, hp, hc2, Option.getD_some]
    split
    case isTrue h2 =>
      split
      case isTrue h1 =>
        simp only [Bool.and_eq_true, bne_iff_ne, ne_eq] at h1
        rcases hbad with h | h | h
        · exact absurd h h1.1.1
        · exact absurd h h1.2
        · exact absurd h h1.1.2
      case isFalse _ => rfl
    case isFalse h2 =>
      exact absurd (by simp [bne_iff_ne, hne1, hne2]) h2

/-- C5: every row ChapterQuery returns belongs to the selected chapter,
has positive count and non-null coordinates; and under the data-model
invariant that counts are non-negative, a chapter outside the
valid-chapters set (chapters whose count sum over all places is
positive) yields an empty result. -/
theorem chapterQuery_valid_chapters (freq : List (Enriched FreqRow)) (c : Int)
    (hpos : ∀ r ∈ freq, 0 ≤ r.base.count) :
    (∀ r ∈ chapterQuery freq c,
      r.base.chapter = c ∧ 0 < r.base.count ∧
        r.lat.isSome = true ∧ r.lon.isSome = true) ∧
    (c ∉ valid_chapters freq → chapterQuery freq c = []) := by
  constructor
  · intro r hr
    simp only [chapterQuery, List.mem_filter, Bool.and_eq_true, beq_iff_eq,
      decide_eq_true_eq] at hr
    exact ⟨hr.1.1.2, hr.1.2, hr.2.1, hr.2.2⟩
  · intro hc
    by_cases hin : c ∈ freq.map (fun r => r.base.chapter)
    · have hsum : ¬ 0 < chapterSum freq c := by
        intro hgt
        apply hc
        rw [valid_chapters, List.mem_filter]
        refine ⟨?_, by simpa using hgt⟩
        rw [(perm_sortAsc intLe _).mem_iff, List.mem_dedup]
        exact hin
      have hmid : (freq.filter (fun r => r.base.chapter == c)).filter
          (fun r => decide (0 < r.base.count)) = [] := by
        rw [List.filter_eq_nil_iff]
        intro r hr
        simp only [decide_eq_true_eq]
        intro hlt
        apply hsum
        have h0 : ∀ x ∈ (freq.filter (fun r => r.base.chapter == c)).map
            (fun r => r.base.count), 0 ≤ x := by
          intro x hx
          rcases List.mem_map.mp hx with ⟨e, he, rfl⟩
          exact hpos e (List.mem_filter.mp he).1
        have hle := List.single_le_sum h0 r.base.count
          (List.mem_map.mpr ⟨r, hr, rfl⟩)
        exact lt_of_lt_of_le hlt hle
      rw [chapterQuery, hmid]
      rfl
    · have h1 : freq.filter (fun r => r.base.chapter == c) = [] := by
        rw [List.filter_eq_nil_iff]
        intro r hr
        simp only [beq_iff_eq]
        intro hrc
        exact hin (List.mem_map.mpr ⟨r, hr, hrc⟩)
      rw [chapterQuery, h1]
      rfl

/-- Witness for C5: a table whose single row has count zero makes every
chapter invalid, and the query at that chapter is empty. -/
theorem chapterQuery_valid_chapters_witness :
    chapterQuery [⟨⟨"A", 3, 0, 0⟩, some 0, some 0⟩] 3 = [] :=
  (chapterQuery_valid_chapters [⟨⟨"A", 3, 0, 0⟩, some 0, some 0⟩] 3
      (by
        intro r hr
        rw [List.mem_singleton] at hr
        subst hr
        decide)).2
    (by decide)

/-- C6: the two Close Reading filters combine as a conjunction —
membership in the doubly-filtered result means membership in the context
table with both the place and the primary-character cell equal to the
picked values — and hence the doubly-filtered result is contained in the
place-only result. -/
theorem contextQuery_conjunction (ctx : List (Enriched ContextRow))
    (P C : String) :
    (∀ r : Enriched ContextRow,
      r ∈ contextQuery ctx (some P) (some C) ↔
        r ∈ ctx ∧ r.base.place = some P ∧ r.base.Character1 = some C) ∧
    (∀ r ∈ contextQuery ctx (some P) (some C),
      r ∈ contextQuery ctx (some P) none) := by
  constructor
  · intro r
    simp only [contextQuery, List.mem_filter, beq_iff_eq]
    tauto
  · intro r hr
    simp only [contextQuery, List.mem_filter] at hr ⊢
    exact hr.1

/-- Witness for C6 on a one-row table: the doubly-matched row is in the
place-only result. -/
theorem contextQuery_conjunction_witness :
    (⟨⟨1, some "N", some "F", none, none, none⟩, none, none⟩ :
        Enriched ContextRow) ∈
      contextQuery [⟨⟨1, some "N", some "F", none, none, none⟩, none, none⟩]
        (some "N") none :=
  (contextQuery_conjunction
      [⟨⟨1, some "N", some "F", none, none, none⟩, none, none⟩] "N" "F").2 _
    (by decide)

/-- C7: the geocoding join is a left outer join on exact place name:
every left row appears in the joined output carried by some output row,
a left row matching no gazetteer entry is retained with null latitude
and longitude rather than dropped, and an exact (case-sensitive) match
carries that gazetteer row's coordinates. -/
theorem leftMerge_left_outer {α : Type} (key : α → Option String)
    (l : List α) (places : List PlaceRow) :
    ∀ r ∈ l,
      (∃ e ∈ leftMerge key l places, e.base = r) ∧
      ((∀ p ∈ places, key r ≠ some p.place) →
        (⟨r, none, none⟩ : Enriched α) ∈ leftMerge key l places) ∧
      (∀ p ∈ places, key r = some p.place →
        (⟨r, p.lat, p.lon⟩ : Enriched α) ∈ leftMerge key l places) := by
  induction l with
  | nil =>
    intro r hr
    exact absurd hr (List.not_mem_nil r)
  | cons x xs ih =>
    intro r hr
    rcases List.mem_cons.mp hr with rfl | hr
    · refine ⟨?_, ?_, ?_⟩
      · rcases hfil : places.filter (fun p => key r == some p.place) with
          _ | ⟨m, ms⟩
        · refine ⟨⟨r, none, none⟩, ?_, rfl⟩
          show _ ∈ mergeBlock key r places ++ _
          rw [List.mem_append]
          left
          unfold mergeBlock
          rw [hfil]
          exact List.mem_singleton.mpr rfl
        · refine ⟨⟨r, m.lat, m.lon⟩, ?_, rfl⟩
          show _ ∈ mergeBlock key r places ++ _
          rw [List.mem_append]
          left
          unfold mergeBlock
          rw [hfil]
          exact List.mem_map.mpr ⟨m, List.mem_cons_self m ms, rfl⟩
      · intro hnone
        have hfil : places.filter (fun p => key r == some p.place) = [] := by
          rw [List.filter_eq_nil_iff]
          intro p hp
          simp only [beq_iff_eq]
          exact hnone p hp
        show _ ∈ mergeBlock key r places ++ _
        rw [List.mem_append]
        left
        unfold mergeBlock
        rw [hfil]
        exact List.mem_singleton.mpr rfl
      · intro p hp hkey
        have hpmem : p ∈ places.filter (fun p2 => key r == some p2.place) :=
          List.mem_filter.mpr ⟨hp, by simp [hkey]⟩
        show _ ∈ mergeBlock key r places ++ _
        rw [List.mem_append]
        left
        unfold mergeBlock
        split
        case h_1 heq =>
          rw [heq] at hpmem
          exact absurd hpmem (List.not_mem_nil p)
        case h_2 m ms heq =>
          rw [heq] at hpmem
          exact List.mem_map.mpr ⟨p, hpmem, rfl⟩
    · rcases ih r hr with ⟨⟨e, he, hb⟩, h2, h3⟩
      refine ⟨⟨e, ?_, hb⟩, ?_, ?_⟩
      · show _ ∈ mergeBlock key x places ++ _
        rw [List.mem_append]
        right
        exact he
      · intro hnone
        show _ ∈ mergeBlock key x places ++ _
        rw [List.mem_append]
        right
        exact h2 hnone
      · intro p hp hkey
        show _ ∈ mergeBlock key x places ++ _
        rw [List.mem_append]
        right
        exact h3 p hp hkey

/-- Witness for C7: with an empty gazetteer, the single frequency row is
retained with null coordinates. -/
theorem leftMerge_left_outer_witness :
    (⟨⟨"A", 1, 2, 0⟩, none, none⟩ : Enriched FreqRow) ∈
      leftMerge (fun r => some r.place) [⟨"A", 1, 2, 0⟩] [] :=
  ((leftMerge_left_outer (fun r => some r.place) [⟨"A", 1, 2, 0⟩] [])
      (⟨"A", 1, 2, 0⟩ : FreqRow) (List.mem_singleton.mpr rfl)).2.1
    (fun p hp => absurd hp (List.not_mem_nil p))

/-- C8: loading is all-or-nothing: the load succeeds exactly when all
three sources parse; a failed load reproduces the message of a failing
source with no tables exposed; and a successful load exposes exactly
the tables derived from the three parsed sources. -/
theorem load_data_all_or_nothing (p : Except String (List PlaceRow))
    (f : Except String (List FreqRow))
    (c : Except String (List ContextRow)) :
    ((load_data p f c).isOk = (p.isOk && f.isOk && c.isOk)) ∧
    (∀ e, load_data p f c = .error e →
      p = .error e ∨ f = .error e ∨ c = .error e) ∧
    (∀ d, load_data p f c = .ok d →
      ∃ ps fs cs, p = .ok ps ∧ f = .ok fs ∧ c = .ok cs ∧
        d.df_places = ps ∧
        d.df_freq_chapter = leftMerge (fun r => some r.place) fs ps ∧
        d.df_freq_total =
          leftMerge (fun t => some t.place) (aggregate fs) ps ∧
        d.df_context = leftMerge (fun r => r.place) cs ps) := by
  cases p <;> cases f <;> cases c <;>
    simp [load_data, Except.isOk, Except.toBool]

/-- Witness for C8: a failing places source propagates its own message
through the whole load. -/
theorem load_data_all_or_nothing_witness :
    (Except.error "boom" : Except String (List PlaceRow)) = .error "boom" ∨
      (Except.ok [] : Except String (List FreqRow)) = .error "boom" ∨
      (Except.ok [] : Except String (List ContextRow)) = .error "boom" :=
  (load_data_all_or_nothing (.error "boom") (.ok []) (.ok [])).2.1 "boom" rfl

/-- C9 counterexample: the export carries the lat column while the Close
Reading view does not show it, so the export's column set is not exactly
the view's column set. -/
theorem export_view_columns_differ :
    "lat" ∈ contextExportColumns ∧ "lat" ∉ contextViewColumns := by
  decide

/-- C9 amended: the export contains every column the view shows, but is
a strict superset — it also carries Character2, lat and lon, the columns
of the filtered frame that the view omits. -/
theorem export_columns_superset :
    (∀ c ∈ contextViewColumns, c ∈ contextExportColumns) ∧
    contextExportColumns.filter (fun c => !(contextViewColumns.contains c)) =
      ["Character2", "lat", "lon"] := by
  decide

/-- Witness for the amended C9: the chapter column shown by the view is
present in the export. -/
theorem export_columns_superset_witness :
    "chapter" ∈ contextExportColumns :=
  export_columns_superset.1 "chapter" (by decide)

/-- Witness for the amended C4 at concrete rows: a fully null row adds
nothing, and the nan-primary row adds exactly the secondary edge. -/
theorem buildGraph_null_row_skip_witness :
    buildGraph [⟨1, none, none, none, none, none⟩] = buildGraph [] ∧
    buildGraph [⟨1, some "Nanjing", some "nan", some "Zhou Jin", none, none⟩] =
      Graph.empty.addEdge (strip "Zhou Jin") (strip "Nanjing") :=
  ⟨(buildGraph_null_row_skip ⟨1, none, none, none, none, none⟩ []).1
      (Or.inl rfl),
   (buildGraph_null_row_skip
        ⟨1, some "Nanjing", some "nan", some "Zhou Jin", none, none⟩ []).2
      "nan" "Nanjing" "Zhou Jin" rfl rfl rfl (Or.inr (Or.inl (by decide)))
      (by decide) (by decide)⟩

end Rulin
